import Mathlib

/-!
Verification development for the `clip` package of GoSlice (`src/clip/clipper.go`).

The package is shallowly embedded: integer micrometer coordinates become `Int`,
`data.Path` becomes `List Point`, `data.Paths` becomes `List Path`.  The external
polygon geometry engine (the clipper library) is not part of the repository; it is
modelled as an explicit oracle argument of each operation, so theorems quantify over
every possible engine behaviour.  Offset distances handed to the engine are `float64`
values in the source; they are modelled as exact rationals (`ℚ`), which agrees with
the source for all micrometer-scale magnitudes where `float64` conversion of the
integer operands is exact.
-/

namespace GoSlice

/-- A point in integer micrometer coordinates (`util.MicroPoint`). -/
abbrev Point := Int × Int

/-- `data.Path`: an ordered sequence of points. -/
abbrev Path := List Point

/-- `data.Paths`: a collection of paths. -/
abbrev Paths := List Path

/-- Componentwise difference of two points (`MicroPoint.Sub`). -/
def ptSub (a b : Point) : Point := (a.1 - b.1, a.2 - b.2)

/-- Modelled from the spec: `util.MicroPoint.ShorterThan` is outside this package.
The spec calls for points that "lie closer than a fixed minimum distance
(100 micrometers)", i.e. a Euclidean length comparison, done here on squares to
stay in integer arithmetic. -/
def shorterThan (p : Point) (len : Int) : Bool :=
  p.1 * p.1 + p.2 * p.2 < len * len

/-- `layerPart` from the source: one outline plus its direct holes. -/
structure LayerPart where
  outline : Path
  holes : Paths
deriving DecidableEq, Repr

/-! ## Layer partitioner (`GenerateLayerParts`)

The point-filtering preprocessing loop of `GenerateLayerParts`: the first point is
always kept (the `j == 0` branch), and each later point is compared against the
most recently retained point. -/

/-- Tail of the preprocessing filter: `prevPt` is the most recently retained point
(`layerPolygon[prev]` in the source, since `prev` is only advanced when a point is
appended).  A point closer than 100 micrometers to it is skipped. -/
def filterNearAux (prevPt : Point) : List Point → List Point
  | [] => []
  | p :: rest =>
    if shorterThan (ptSub p prevPt) 100 then filterNearAux prevPt rest
    else p :: filterNearAux p rest

/-- The per-polygon preprocessing loop of `GenerateLayerParts`: keep the first
point unconditionally, then filter against the last retained point. -/
def filterNear : List Point → List Point
  | [] => []
  | p0 :: rest => p0 :: filterNearAux p0 rest

/-- A node of the engine's `PolyTree` result: a contour and its directly nested
children (`clipper.PolyNode`). -/
inductive PolyNode where
  | node (contour : Path) (childs : List PolyNode)

/-- The contour stored at a node (`PolyNode.Contour`). -/
def PolyNode.contour : PolyNode → Path
  | .node c _ => c

/-- The direct children of a node (`PolyNode.Childs`). -/
def PolyNode.childs : PolyNode → List PolyNode
  | .node _ cs => cs

mutual

/-- Size measure of a node used to justify termination of the tree walk. -/
def PolyNode.size : PolyNode → Nat
  | .node _ cs => 1 + sizeList cs

/-- Total size of a list of nodes. -/
def sizeList : List PolyNode → Nat
  | [] => 0
  | p :: ps => PolyNode.size p + sizeList ps

end

/-- One round of the tree walk: each candidate outline node becomes a
`layerPart` whose outline is the node's contour and whose holes are exactly the
contours of the node's direct children. -/
def roundParts (ns : List PolyNode) : List LayerPart :=
  ns.map fun p => LayerPart.mk p.contour (p.childs.map PolyNode.contour)

/-- The candidates collected for the next round: every grandchild of a candidate
outline node (children of its holes). -/
def grandchildren (ns : List PolyNode) : List PolyNode :=
  ns.flatMap fun p => p.childs.flatMap PolyNode.childs

/-- The breadth-level tree walk of `GenerateLayerParts`: each round turns every
candidate node into a part and queues all grandchildren for the next round,
until no candidates remain (`polysForNextRound == nil`). -/
def walkRounds : List PolyNode → List LayerPart
  | [] => []
  | p :: rest => roundParts (p :: rest) ++ walkRounds (grandchildren (p :: rest))
termination_by ns => sizeList ns
decreasing_by
  have hch : ∀ q : PolyNode, sizeList q.childs < q.size := by
    intro q
    cases q with
    | node c cs => simp [PolyNode.size, PolyNode.childs]
  have happ : ∀ a b : List PolyNode, sizeList (a ++ b) = sizeList a + sizeList b := by
    intro a b
    induction a with
    | nil => simp [sizeList]
    | cons q qs ih => simp [sizeList, ih]; omega
  have hfm : ∀ cs : List PolyNode, sizeList (cs.flatMap PolyNode.childs) ≤ sizeList cs := by
    intro cs
    induction cs with
    | nil => simp [sizeList]
    | cons d ds ih =>
      have hd := hch d
      have hap := happ d.childs (ds.flatMap PolyNode.childs)
      simp only [List.flatMap_cons, sizeList]
      omega
  have hle : ∀ ms : List PolyNode, sizeList (grandchildren ms) ≤ sizeList ms := by
    intro ms
    induction ms with
    | nil => simp [grandchildren, sizeList]
    | cons q qs ih =>
      have h1 := hfm q.childs
      have h2 := hch q
      have h3 : sizeList (grandchildren (q :: qs))
          = sizeList (q.childs.flatMap PolyNode.childs) + sizeList (grandchildren qs) := by
        simp only [grandchildren, List.flatMap_cons]
        exact happ _ _
      have h4 : sizeList (q :: qs) = q.size + sizeList qs := rfl
      omega
  have h1 := hfm p.childs
  have h2 := hch p
  have h3 : sizeList (grandchildren (p :: ps))
      = sizeList (p.childs.flatMap PolyNode.childs) + sizeList (grandchildren ps) := by
    simp only [grandchildren, List.flatMap_cons]
    exact happ _ _
  have h4 := hle ps
  have h5 : sizeList (p :: ps) = p.size + sizeList ps := rfl
  omega

/-- `GenerateLayerParts`, with the engine's union step given as an oracle
returning the hierarchical result tree (`clipper.PolyTree`, its root a synthetic
node whose children are the top-level contours), or `none` on engine failure. -/
def GenerateLayerParts (union : Paths → Option PolyNode) (polygons : List Path) :
    Option (List LayerPart) :=
  let polyList := polygons.map filterNear
  match union polyList with
  | none => none
  | some tree => some (walkRounds tree.childs)

/-! ## Wall inset generator (`Inset`)

The engine's `ClipperOffset.Execute` is modelled as an oracle
`e : Paths → ℚ → List Path` taking the submitted paths (outline first, then the
holes, exactly as the two `AddPaths` calls submit them) and the offset distance,
and returning the produced contours.  `Micrometer` division by 2 in the source is
Go integer division, which truncates toward zero (`Int.tdiv`). -/

/-- The offset distance submitted to the engine at inset level `insetNr`:
`float64(-int(offset)*insetNr) - float64(offset/2)` in the source, with both
operands exact integers. -/
def insetDelta (offset : Int) (insetNr : Nat) : ℚ :=
  ((-offset * (insetNr : Int) : Int) : ℚ) - ((Int.tdiv offset 2 : Int) : ℚ)

/-- Pad a wall's level list with empty `Paths` entries up to length `n`
(the `for len(insets[wallNr]) <= insetNr` loop). -/
def padTo (row : List Paths) (n : Nat) : List Paths :=
  row ++ List.replicate (n - row.length) []

/-- Record one produced contour for wall `row` at level `insetNr`: pad the
level list, then append the contour to the entry at `insetNr`
(`insets[wallNr][insetNr] = append(insets[wallNr][insetNr], wall)`). -/
def setLevel (row : List Paths) (insetNr : Nat) (wall : Path) : List Paths :=
  let r := padTo row (insetNr + 1)
  r.set insetNr (r.getD insetNr [] ++ [wall])

/-- The per-wall body of the inset loop: grow the outer wall list by one entry
when the wall index is new (`if len(insets) <= wallNr`), then record the contour. -/
def addWall (insets : List (List Paths)) (insetNr wallNr : Nat) (wall : Path) :
    List (List Paths) :=
  let insets2 := if insets.length ≤ wallNr then insets ++ [[]] else insets
  insets2.set wallNr (setLevel (insets2.getD wallNr []) insetNr wall)

/-- One inset level's wall loop: `for wallNr, wall := range microPaths(...)`. -/
def addLevel (insets : List (List Paths)) (insetNr : Nat) (walls : List Path) :
    List (List Paths) :=
  walls.enum.foldl (fun acc iw => addWall acc insetNr iw.1 iw.2) insets

/-- The main loop of `Inset`, with the remaining iteration count as fuel
(`insetNr` counts up exactly as in the source; `fuel + insetNr` is constant and
equals `insetCount`).  The level's engine output is converted wall by wall through
the simplification step of `microPaths(allNewInsets, true)`, modelled by the
abstract `simplify`. -/
def insetLoop (e : Paths → ℚ → List Path) (simplify : Path → Path) (inp : Paths)
    (offset : Int) : Nat → Nat → List (List Paths) → List (List Paths)
  | 0, _, insets => insets
  | fuel + 1, insetNr, insets =>
    let allNewInsets := e inp (insetDelta offset insetNr)
    if allNewInsets.length ≤ 0 then insets
    else
      insetLoop e simplify inp offset fuel (insetNr + 1)
        (addLevel insets insetNr (allNewInsets.map simplify))

/-- `Inset`: produce up to `insetCount` concentric inward offsets of the part,
submitting the outline and the holes together to the engine each level. -/
def Inset (e : Paths → ℚ → List Path) (simplify : Path → Path) (part : LayerPart)
    (offset : Int) (insetCount : Int) : List (List Paths) :=
  insetLoop e simplify (part.outline :: part.holes) offset insetCount.toNat 0 []

/-- The number of inset levels the loop actually executes before stopping
(either by exhausting `insetCount` or because the engine produced no contours). -/
def insetAttempts (e : Paths → ℚ → List Path) (inp : Paths) (offset : Int) :
    Nat → Nat → Nat
  | 0, _ => 0
  | fuel + 1, insetNr =>
    if (e inp (insetDelta offset insetNr)).length ≤ 0 then 0
    else insetAttempts e inp offset fuel (insetNr + 1) + 1

/-! ## Scanline fill generator (`Fill` / `getLinearFill`)

The engine appears twice: the per-contour inward offset (`ClipperOffset.Execute`)
and the open-path intersection (`Clipper.Execute2` with `CtIntersection`), which
can fail (`ok == false`).  The intersection oracle returns the contours of the
result tree's children, or `none` for failure.  The scanline generation loop has
no termination guarantee for `lineWidth <= 0`, so it is embedded with explicit
fuel: `none` means the fuel ran out while the loop would have continued. -/

/-- Engine oracle for `getLinearFill`. -/
structure FillEngine where
  offsetPath : Path → ℚ → List Path
  intersect : List Path → List Path → Option (List Path)

/-- The inward pull-in distance: `float32(lineWidth) * (100.0 - float32(overlapPercentage)) / 100.0`,
modelled exactly over ℚ. -/
def fillOverlap (lineWidth overlapPercentage : Int) : ℚ :=
  (lineWidth : ℚ) * ((100 : ℚ) - (overlapPercentage : ℚ)) / 100

/-- One scanline at abscissa `x`: odd-numbered lines run from the maximal to the
minimal y, even-numbered lines the other way around. -/
def fillLine (x minY maxY : Int) (numLine : Nat) : Path :=
  if numLine % 2 = 1 then [(x, maxY), (x, minY)] else [(x, minY), (x, maxY)]

/-- The scanline generation loop `for x := min.X(); x <= max.X(); x += lineWidth`,
with fuel bounding the number of iterations still allowed. -/
def fillLinesAux (minY maxY lineWidth maxX : Int) : Nat → Int → Nat → Option (List Path)
  | 0, x, _ => if x ≤ maxX then none else some []
  | fuel + 1, x, numLine =>
    if x ≤ maxX then
      (fillLinesAux minY maxY lineWidth maxX fuel (x + lineWidth) (numLine + 1)).map
        (fillLine x minY maxY numLine :: ·)
    else some []

/-- All pre-clip scanlines over the bounding box from `minP` to `maxP`. -/
def fillLines (minP maxP : Point) (lineWidth : Int) (fuel : Nat) : Option (List Path) :=
  fillLinesAux minP.2 maxP.2 lineWidth maxP.1 fuel minP.1 0

/-- The per-contour loop of `getLinearFill`: offset the single contour inward by
`overlap`, intersect the scanlines against it, and append the resulting contours;
on intersection failure the whole call returns `nil` (the empty result), dropping
everything accumulated so far. -/
def fillPolys (E : FillEngine) (lines : List Path) (overlap : ℚ) :
    List Path → List Path → List Path
  | [], result => result
  | path :: rest, result =>
    match E.intersect (E.offsetPath path (-overlap)) lines with
    | none => []
    | some cs => fillPolys E lines overlap rest (result ++ cs)

/-- `getLinearFill`: generate the scanlines, then clip them to each contour's
inward offset independently. -/
def getLinearFill (E : FillEngine) (polys : List Path) (minP maxP : Point)
    (lineWidth overlapPercentage : Int) (fuel : Nat) : Option (List Path) :=
  match fillLines minP maxP lineWidth fuel with
  | none => none
  | some lines =>
    some (fillPolys E lines (fillOverlap lineWidth overlapPercentage) polys [])

/-- Modelled from the spec: `data.Paths.Size` (the axis-aligned bounding box of a
region, its min and max corners) is outside this package. -/
def bboxOf (paths : List Path) : Point × Point :=
  let pts := paths.flatMap id
  match pts with
  | [] => ((0, 0), (0, 0))
  | p :: rest =>
    (rest.foldl (fun mn q => (min mn.1 q.1, min mn.2 q.2)) p,
     rest.foldl (fun mx q => (max mx.1 q.1, max mx.2 q.2)) p)

/-- `Fill`: compute the region's bounding box and run `getLinearFill` over it. -/
def Fill (E : FillEngine) (paths : List Path) (lineWidth overlapPercentage : Int)
    (fuel : Nat) : Option (List Path) :=
  getLinearFill E paths (bboxOf paths).1 (bboxOf paths).2 lineWidth
    overlapPercentage fuel

/-! ## Statement-side helper definitions and concrete instances -/

/-- Bool predicate used in statements: every two consecutive points of a list are
at least 100 micrometers apart. -/
def spacedApart : List Point → Bool
  | p :: q :: rest => !(shorterThan (ptSub q p) 100) && spacedApart (q :: rest)
  | _ => true

/-- An offset-engine oracle ignoring its inputs, used to instantiate theorems. -/
def constEngine (out : List Path) : Paths → ℚ → List Path := fun _ _ => out

/-- Structural reformulation of `addLevel` used in proofs: the walls of one level
are matched positionally with the existing wall entries, new wall entries being
appended at the end.  Proved equal to `addLevel` below. -/
def zipAdd (insetNr : Nat) : List (List Paths) → List Path → List (List Paths)
  | acc, [] => acc
  | [], wall :: ws => setLevel [] insetNr wall :: zipAdd insetNr [] ws
  | row :: accRest, wall :: ws => setLevel row insetNr wall :: zipAdd insetNr accRest ws

/-- The loop invariant of `Inset` after `k` executed levels: every wall's level
list has at most `k` entries, wall 0 has exactly `k` entries, and an entry at a
level where the engine produced no contour for that wall index is empty. -/
def InsetInv (e : Paths → ℚ → List Path) (inp : Paths) (offset : Int)
    (k : Nat) (acc : List (List Paths)) : Prop :=
  (∀ w, w < acc.length → (acc.getD w []).length ≤ k) ∧
  (acc ≠ [] → (acc.getD 0 []).length = k) ∧
  (∀ w l, w < acc.length → l < (acc.getD w []).length →
    (e inp (insetDelta offset l)).length ≤ w → (acc.getD w []).getD l [] = [])

/-- An offset engine producing two walls at the first inset level (distance `-1`
for `offset = 2`) and a single wall at the second (distance `-3`), none later. -/
def cexInsetEngine : Paths → ℚ → List Path :=
  fun _ d => if d = -1 then [[(0, 0)], [(0, 0)]] else if d = -3 then [[(0, 0)]] else []

/-- A fill engine whose offset is the identity and whose intersections always
succeed with an empty result. -/
def trivFillEngine : FillEngine :=
  ⟨fun p _ => [p], fun _ _ => some []⟩

/-- First contour of the fill counterexample region. -/
def sq1cex : Path := [(0, 0), (10, 0), (10, 10), (0, 10)]

/-- Second contour of the fill counterexample region. -/
def sq2cex : Path := [(20, 0), (30, 0), (30, 10), (20, 10)]

/-- A fill engine whose offset is the identity and whose intersection succeeds
with one sub-path on every contour except `sq2cex`, where it reports failure. -/
def cexFillEngine : FillEngine :=
  ⟨fun p _ => [p], fun clip _ => if clip = [sq2cex] then none else some [[(5, 5)]]⟩

/-- Outline rectangle of the nesting example. -/
def outerRect : Path := [(0, 0), (100000, 0), (100000, 100000), (0, 100000)]

/-- Hole rectangle nested in `outerRect`. -/
def holeRect : Path := [(20000, 20000), (80000, 20000), (80000, 80000), (20000, 80000)]

/-- Island rectangle nested in `holeRect`. -/
def islandRect : Path := [(40000, 40000), (60000, 40000), (60000, 60000), (40000, 60000)]

/-! ## Theorems about the layer partitioner's point filter -/

theorem filterNearAux_append_near (prevPt : Point) (run rest : List Point)
    (h : ∀ q ∈ run, shorterThan (ptSub q prevPt) 100 = true) :
    filterNearAux prevPt (run ++ rest) = filterNearAux prevPt rest := by
  induction run with
  | nil => rfl
  | cons q run' ih =>
    simp only [List.cons_append, filterNearAux]
    rw [if_pos (h q (by simp))]
    exact ih fun q' hq' => h q' (by simp [hq'])

theorem spacedApart_filterNearAux (prevPt : Point) (l : List Point) :
    spacedApart (prevPt :: filterNearAux prevPt l) = true := by
  induction l generalizing prevPt with
  | nil => rfl
  | cons p rest ih =>
    by_cases hc : shorterThan (ptSub p prevPt) 100 = true
    · simp only [filterNearAux, if_pos hc]
      exact ih prevPt
    · simp only [filterNearAux, if_neg hc]
      show (!(shorterThan (ptSub p prevPt) 100) && spacedApart (p :: filterNearAux p rest)) = true
      rw [ih p]
      simp [hc]

/-- C3: during `GenerateLayerParts` preprocessing the first point of a raw path is
always retained, each later point is dropped exactly when it is closer than 100
micrometers to the most recently retained point (so every two consecutive retained
points are at least 100 micrometers apart), and a consecutive run of points all
within 100 micrometers of the last retained point collapses away entirely. -/
theorem generateLayerParts_point_filter (p0 : Point) (run rest : List Point)
    (hrun : ∀ q ∈ run, shorterThan (ptSub q p0) 100 = true) :
    filterNear (p0 :: (run ++ rest)) = filterNear (p0 :: rest) ∧
    (filterNear (p0 :: rest)).head? = some p0 ∧
    spacedApart (filterNear (p0 :: rest)) = true ∧
    (∀ (q : Point) (rest2 : List Point), shorterThan (ptSub q p0) 100 = false →
      filterNear (p0 :: q :: rest2) = p0 :: filterNear (q :: rest2)) := by
  refine ⟨?_, ?_, ?_, ?_⟩
  · simp only [filterNear]
    rw [filterNearAux_append_near p0 run rest hrun]
  · simp [filterNear]
  · simp only [filterNear]
    exact spacedApart_filterNearAux p0 rest
  · intro q rest2 hq
    simp only [filterNear, filterNearAux]
    rw [if_neg (by simp [hq])]

/-- Witness: a run of two points within 100 micrometers of the first point
collapses, and the retained points are the first point and the far point. -/
theorem generateLayerParts_point_filter_witness :
    (∀ q ∈ [((10 : ℤ), (0 : ℤ)), (20, 0)], shorterThan (ptSub q (0, 0)) 100 = true) ∧
    (filterNear ((0, 0) :: ([((10 : ℤ), (0 : ℤ)), (20, 0)] ++ [(150, 0), (200, 0)]))
        = filterNear ((0, 0) :: [(150, 0), (200, 0)]) ∧
      (filterNear ((0, 0) :: [((150 : ℤ), (0 : ℤ)), (200, 0)])).head? = some (0, 0) ∧
      spacedApart (filterNear ((0, 0) :: [((150 : ℤ), (0 : ℤ)), (200, 0)])) = true ∧
      (∀ (q : Point) (rest2 : List Point), shorterThan (ptSub q ((0 : ℤ), (0 : ℤ))) 100 = false →
        filterNear ((0, 0) :: q :: rest2) = (0, 0) :: filterNear (q :: rest2))) :=
  ⟨by decide,
    generateLayerParts_point_filter (0, 0) [(10, 0), (20, 0)] [(150, 0), (200, 0)] (by decide)⟩

/-! ## Theorems about `Inset` -/

/-- C4: the offset distance submitted to the engine at inset level `insetLevel`
equals `-(offset * insetLevel) - offset/2`, with `offset/2` computed by Go integer
(truncating) division in the micrometer coordinate space. -/
theorem inset_delta_formula (offset : Int) (insetLevel : Nat) :
    insetDelta offset insetLevel
      = ((-(offset * insetLevel) - Int.tdiv offset 2 : Int) : ℚ) := by
  unfold insetDelta
  push_cast
  ring

/-- C10: `Inset` with a non-positive `insetCount` returns the empty structure.
The statement quantifies over every engine oracle `e`, so the result in no way
depends on the engine: the loop never consults it. -/
theorem inset_nonpositive_count (e : Paths → ℚ → List Path) (simplify : Path → Path)
    (part : LayerPart) (offset : Int) (insetCount : Int) (h : insetCount ≤ 0) :
    Inset e simplify part offset insetCount = [] := by
  unfold Inset
  rw [show insetCount.toNat = 0 from by omega]
  rfl

/-- Witness for C10 at `insetCount = -1`. -/
theorem inset_nonpositive_count_witness :
    (-1 : Int) ≤ 0 ∧ Inset (constEngine [[(0, 0)]]) id ⟨[], []⟩ 2 (-1) = [] :=
  ⟨by decide, inset_nonpositive_count (constEngine [[(0, 0)]]) id ⟨[], []⟩ 2 (-1) (by decide)⟩

theorem insetLoop_stop (e : Paths → ℚ → List Path) (simplify : Path → Path)
    (inp : Paths) (offset : Int) :
    ∀ (m fuel insetNr : Nat) (acc : List (List Paths)), m < fuel →
      (e inp (insetDelta offset (insetNr + m))).length ≤ 0 →
      insetLoop e simplify inp offset fuel insetNr acc
        = insetLoop e simplify inp offset m insetNr acc := by
  intro m
  induction m with
  | zero =>
    intro fuel insetNr acc hf he
    cases fuel with
    | zero => omega
    | succ f =>
      simp only [insetLoop]
      rw [if_pos (by simpa using he)]
  | succ m ih =>
    intro fuel insetNr acc hf he
    cases fuel with
    | zero => omega
    | succ f =>
      simp only [insetLoop]
      by_cases hc : (e inp (insetDelta offset insetNr)).length ≤ 0
      · rw [if_pos hc, if_pos hc]
      · rw [if_neg hc, if_neg hc]
        refine ih f (insetNr + 1) _ (by omega) ?_
        rw [show insetNr + 1 + m = insetNr + (m + 1) from by omega]
        exact he

/-- C5: if the engine's offset yields no contours at a reachable level `k`, the
loop produces nothing beyond the levels before `k` (running with any larger
`insetCount` gives the same result as running with `insetCount = k`); in
particular an empty first level gives the empty structure, with no error. -/
theorem inset_stops_on_empty (e : Paths → ℚ → List Path) (simplify : Path → Path)
    (part : LayerPart) (offset : Int) (k : Nat) (n : Int)
    (hk : (k : Int) < n)
    (he : (e (part.outline :: part.holes) (insetDelta offset k)).length ≤ 0) :
    Inset e simplify part offset n = Inset e simplify part offset (k : Int) ∧
    (k = 0 → Inset e simplify part offset n = []) := by
  have hkn : k < n.toNat := by omega
  have h1 : Inset e simplify part offset n
      = insetLoop e simplify (part.outline :: part.holes) offset k 0 [] := by
    unfold Inset
    exact insetLoop_stop e simplify _ offset k n.toNat 0 [] hkn (by simpa using he)
  constructor
  · rw [h1]
    unfold Inset
    rw [Int.toNat_natCast]
  · intro hk0
    subst hk0
    rw [h1]
    rfl

/-- Witness for C5: an engine empty at the very first level makes `Inset` with
`insetCount = 3` return the empty structure. -/
theorem inset_stops_on_empty_witness :
    (((0 : Nat) : Int) < 3 ∧ (constEngine [] [[]] (insetDelta 2 0)).length ≤ 0) ∧
    (Inset (constEngine []) id ⟨[], []⟩ 2 3 = Inset (constEngine []) id ⟨[], []⟩ 2 ((0 : Nat) : Int) ∧
      ((0 : Nat) = 0 → Inset (constEngine []) id ⟨[], []⟩ 2 3 = [])) :=
  ⟨⟨by decide, by decide⟩,
    inset_stops_on_empty (constEngine []) id ⟨[], []⟩ 2 0 3 (by decide) (by decide)⟩

/-! ## Theorems about the partition tree walk -/

theorem walkRounds_nil : walkRounds [] = [] := by
  rw [walkRounds]

theorem walkRounds_cons (p : PolyNode) (rest : List PolyNode) :
    walkRounds (p :: rest)
      = roundParts (p :: rest) ++ walkRounds (grandchildren (p :: rest)) := by
  rw [walkRounds]

theorem roundParts_mem_walkRounds {p : PolyNode} {ns : List PolyNode} (h : p ∈ ns) :
    LayerPart.mk p.contour (p.childs.map PolyNode.contour) ∈ walkRounds ns := by
  cases ns with
  | nil => simp at h
  | cons q rest =>
    rw [walkRounds_cons]
    refine List.mem_append_left _ ?_
    exact List.mem_map_of_mem _ h

/-- C6: the tree walk makes one `LayerPart` per candidate outline node, with the
contours of the node's direct children as its holes; every grandchild becomes a
candidate of a later round and yields its own independent part; and the concrete
rectangle-hole-island tree partitions into exactly two parts: the outer rectangle
with the hole, and the island with no holes. -/
theorem partition_tree_walk (ns : List PolyNode) (h : ns ≠ []) :
    walkRounds ns = roundParts ns ++ walkRounds (grandchildren ns) ∧
    (∀ g ∈ grandchildren ns,
      LayerPart.mk g.contour (g.childs.map PolyNode.contour) ∈ walkRounds ns) ∧
    walkRounds [PolyNode.node outerRect [PolyNode.node holeRect [PolyNode.node islandRect []]]]
      = [LayerPart.mk outerRect [holeRect], LayerPart.mk islandRect []] := by
  obtain ⟨p, rest, rfl⟩ : ∃ p rest, ns = p :: rest := by
    cases ns with
    | nil => exact absurd rfl h
    | cons p rest => exact ⟨p, rest, rfl⟩
  refine ⟨walkRounds_cons p rest, ?_, ?_⟩
  · intro g hg
    rw [walkRounds_cons]
    exact List.mem_append_right _ (roundParts_mem_walkRounds hg)
  · have e1 : grandchildren
        [PolyNode.node outerRect [PolyNode.node holeRect [PolyNode.node islandRect []]]]
        = [PolyNode.node islandRect []] := by
      simp [grandchildren, PolyNode.childs]
    have e2 : grandchildren [PolyNode.node islandRect []] = [] := by
      simp [grandchildren, PolyNode.childs]
    rw [walkRounds_cons, e1, walkRounds_cons, e2, walkRounds_nil]
    simp [roundParts, PolyNode.contour, PolyNode.childs]

/-- Witness for C6 at a one-node tree. -/
theorem partition_tree_walk_witness :
    ([PolyNode.node [] []] ≠ []) ∧
    (walkRounds [PolyNode.node [] []]
        = roundParts [PolyNode.node [] []] ++ walkRounds (grandchildren [PolyNode.node [] []]) ∧
      (∀ g ∈ grandchildren [PolyNode.node [] []],
        LayerPart.mk g.contour (g.childs.map PolyNode.contour)
          ∈ walkRounds [PolyNode.node [] []]) ∧
      walkRounds [PolyNode.node outerRect [PolyNode.node holeRect [PolyNode.node islandRect []]]]
        = [LayerPart.mk outerRect [holeRect], LayerPart.mk islandRect []]) :=
  ⟨by simp, partition_tree_walk [PolyNode.node [] []] (by simp)⟩

/-! ## Theorems about the scanline generation loop -/

theorem fillLinesAux_of_gt (minY maxY w maxX : Int) (fuel : Nat) (x : Int) (n : Nat)
    (h : ¬ x ≤ maxX) : fillLinesAux minY maxY w maxX fuel x n = some [] := by
  cases fuel with
  | zero => simp only [fillLinesAux]; rw [if_neg h]
  | succ f => simp only [fillLinesAux]; rw [if_neg h]

theorem fillLinesAux_zero_of_le (minY maxY w maxX : Int) (x : Int) (n : Nat)
    (hx : x ≤ maxX) : fillLinesAux minY maxY w maxX 0 x n = none := by
  simp only [fillLinesAux]
  rw [if_pos hx]

theorem fillLinesAux_succ_of_le (minY maxY w maxX : Int) (f : Nat) (x : Int) (n : Nat)
    (hx : x ≤ maxX) :
    fillLinesAux minY maxY w maxX (f + 1) x n
      = (fillLinesAux minY maxY w maxX f (x + w) (n + 1)).map
          (fillLine x minY maxY n :: ·) := by
  simp only [fillLinesAux]
  rw [if_pos hx]

theorem fillLinesAux_none_of_nonpos (minY maxY w maxX : Int) (hw : w ≤ 0) :
    ∀ (fuel : Nat) (x : Int) (n : Nat), x ≤ maxX →
      fillLinesAux minY maxY w maxX fuel x n = none := by
  intro fuel
  induction fuel with
  | zero =>
    intro x n hx
    exact fillLinesAux_zero_of_le minY maxY w maxX x n hx
  | succ f ih =>
    intro x n hx
    rw [fillLinesAux_succ_of_le minY maxY w maxX f x n hx, ih (x + w) (n + 1) (by omega)]
    rfl

theorem fillLinesAux_some (minY maxY w maxX : Int) (hw : 1 ≤ w) :
    ∀ (fuel : Nat) (x : Int) (n : Nat), (maxX - x).toNat < fuel →
      ∃ ls, fillLinesAux minY maxY w maxX fuel x n = some ls := by
  intro fuel
  induction fuel with
  | zero => intro x n h; omega
  | succ f ih =>
    intro x n h
    by_cases hx : x ≤ maxX
    · by_cases hx2 : x + w ≤ maxX
      · obtain ⟨ls, hls⟩ := ih (x + w) (n + 1) (by omega)
        refine ⟨fillLine x minY maxY n :: ls, ?_⟩
        rw [fillLinesAux_succ_of_le minY maxY w maxX f x n hx, hls]
        rfl
      · refine ⟨[fillLine x minY maxY n], ?_⟩
        rw [fillLinesAux_succ_of_le minY maxY w maxX f x n hx,
          fillLinesAux_of_gt minY maxY w maxX f (x + w) (n + 1) hx2]
        rfl
    · exact ⟨[], fillLinesAux_of_gt minY maxY w maxX (f + 1) x n hx⟩

theorem fillLinesAux_length (minY maxY w maxX : Int) (hw : 1 ≤ w) :
    ∀ (fuel : Nat) (x : Int) (n : Nat) (ls : List Path),
      fillLinesAux minY maxY w maxX fuel x n = some ls →
      ls.length = if x ≤ maxX then ((maxX - x) / w).toNat + 1 else 0 := by
  intro fuel
  induction fuel with
  | zero =>
    intro x n ls h
    by_cases hx : x ≤ maxX
    · rw [fillLinesAux_zero_of_le minY maxY w maxX x n hx] at h
      cases h
    · rw [fillLinesAux_of_gt minY maxY w maxX 0 x n hx] at h
      cases h
      rw [if_neg hx]
      rfl
  | succ f ih =>
    intro x n ls h
    by_cases hx : x ≤ maxX
    · rw [fillLinesAux_succ_of_le minY maxY w maxX f x n hx] at h
      cases hrec : fillLinesAux minY maxY w maxX f (x + w) (n + 1) with
      | none => rw [hrec] at h; cases h
      | some ls' =>
        rw [hrec] at h
        have hls : ls = fillLine x minY maxY n :: ls' := by
          simpa using h.symm
        have hlen := ih (x + w) (n + 1) ls' hrec
        rw [if_pos hx]
        subst hls
        simp only [List.length_cons]
        by_cases hx2 : x + w ≤ maxX
        · rw [if_pos hx2] at hlen
          rw [show maxX - (x + w) = maxX - x - w from by ring] at hlen
          have hdiv : (maxX - x) / w = (maxX - x - w) / w + 1 := by
            conv_lhs => rw [show maxX - x = (maxX - x - w) + 1 * w from by ring]
            exact Int.add_mul_ediv_right _ _ (by omega)
          have hnn : 0 ≤ (maxX - x - w) / w := Int.ediv_nonneg (by omega) (by omega)
          have htn : ((maxX - x) / w).toNat = ((maxX - x - w) / w).toNat + 1 := by
            omega
          rw [hlen, htn]
        · rw [if_neg hx2] at hlen
          have hdiv : (maxX - x) / w = 0 := Int.ediv_eq_zero_of_lt (by omega) (by omega)
          rw [hlen, hdiv]
          rfl
    · rw [fillLinesAux_of_gt minY maxY w maxX (f + 1) x n hx] at h
      cases h
      rw [if_neg hx]
      rfl

/-- C7: with `1 ≤ lineWidth` and a bounding box with `minX ≤ maxX`, the number of
pre-clip scanlines equals `floor((maxX - minX) / lineWidth) + 1` (the x values
step by `lineWidth` from the minimum up to and including the maximum). -/
theorem fill_scanline_count (minP maxP : Point) (w : Int)
    (hw : 1 ≤ w) (hx : minP.1 ≤ maxP.1) :
    ∃ ls, fillLines minP maxP w ((maxP.1 - minP.1).toNat + 1) = some ls ∧
      ls.length = ((maxP.1 - minP.1) / w).toNat + 1 := by
  obtain ⟨ls, hls⟩ :=
    fillLinesAux_some minP.2 maxP.2 w maxP.1 hw ((maxP.1 - minP.1).toNat + 1) minP.1 0
      (by omega)
  refine ⟨ls, hls, ?_⟩
  have hlen := fillLinesAux_length minP.2 maxP.2 w maxP.1 hw _ minP.1 0 ls hls
  rw [if_pos hx] at hlen
  exact hlen

/-- Witness for C7: a 30-wide box with line width 10 yields 4 scanlines. -/
theorem fill_scanline_count_witness :
    ((1 : Int) ≤ 10 ∧ ((0 : Int), (0 : Int)).1 ≤ ((30 : Int), (10 : Int)).1) ∧
    (∃ ls, fillLines ((0 : Int), (0 : Int)) ((30 : Int), (10 : Int)) 10
        ((((30 : Int), (10 : Int)).1 - ((0 : Int), (0 : Int)).1).toNat + 1) = some ls ∧
      ls.length = (((((30 : Int), (10 : Int)).1 - ((0 : Int), (0 : Int)).1)) / 10).toNat + 1) :=
  ⟨⟨by decide, by decide⟩,
    fill_scanline_count ((0 : Int), (0 : Int)) ((30 : Int), (10 : Int)) 10 (by decide) (by decide)⟩

theorem fillLinesAux_getD (minY maxY w maxX : Int) :
    ∀ (fuel : Nat) (x : Int) (n : Nat) (ls : List Path),
      fillLinesAux minY maxY w maxX fuel x n = some ls →
      ∀ i, i < ls.length →
        ls.getD i [] = fillLine (x + w * (i : Int)) minY maxY (n + i) := by
  intro fuel
  induction fuel with
  | zero =>
    intro x n ls h i hi
    by_cases hx : x ≤ maxX
    · rw [fillLinesAux_zero_of_le minY maxY w maxX x n hx] at h
      cases h
    · rw [fillLinesAux_of_gt minY maxY w maxX 0 x n hx] at h
      cases h
      simp at hi
  | succ f ih =>
    intro x n ls h i hi
    by_cases hx : x ≤ maxX
    · rw [fillLinesAux_succ_of_le minY maxY w maxX f x n hx] at h
      cases hrec : fillLinesAux minY maxY w maxX f (x + w) (n + 1) with
      | none => rw [hrec] at h; cases h
      | some ls' =>
        rw [hrec] at h
        have hls : ls = fillLine x minY maxY n :: ls' := by simpa using h.symm
        subst hls
        cases i with
        | zero =>
          rw [List.getD_cons_zero]
          norm_num
        | succ j =>
          have hj : j < ls'.length := by simpa using hi
          have e1 : x + w * ((j + 1 : Nat) : Int) = x + w + w * (j : Int) := by
            push_cast
            ring
          have e2 : n + (j + 1) = n + 1 + j := by omega
          rw [List.getD_cons_succ, e1, e2]
          exact ih (x + w) (n + 1) ls' hrec j hj
    · rw [fillLinesAux_of_gt minY maxY w maxX (f + 1) x n hx] at h
      cases h
      simp at hi

/-- C8: among the generated pre-clip scanlines (for a box with `minY < maxY`),
every even-indexed line runs from the smaller to the larger y-coordinate and
every odd-indexed line runs from the larger to the smaller one. -/
theorem fill_zigzag_alternation (minP maxP : Point) (w : Int) (fuel : Nat)
    (ls : List Path) (hy : minP.2 < maxP.2)
    (hls : fillLines minP maxP w fuel = some ls) :
    ∀ i, i < ls.length →
      ∀ p ∈ (ls.getD i []).head?, ∀ q ∈ (ls.getD i []).getLast?,
        (i % 2 = 0 → p.2 < q.2) ∧ (i % 2 = 1 → q.2 < p.2) := by
  intro i hi p hp q hq
  have hget := fillLinesAux_getD minP.2 maxP.2 w maxP.1 fuel minP.1 0 ls hls i hi
  rw [hget] at hp hq
  rcases Nat.mod_two_eq_zero_or_one i with h2 | h2
  · simp only [fillLine, Nat.zero_add, h2, Nat.zero_ne_one, if_false] at hp hq
    simp only [List.head?_cons, Option.mem_def, Option.some.injEq] at hp
    simp only [List.getLast?, List.getLast, Option.mem_def, Option.some.injEq] at hq
    subst hp
    subst hq
    exact ⟨fun _ => hy, fun hcon => by omega⟩
  · simp only [fillLine, Nat.zero_add, h2, if_true] at hp hq
    simp only [List.head?_cons, Option.mem_def, Option.some.injEq] at hp
    simp only [List.getLast?, List.getLast, Option.mem_def, Option.some.injEq] at hq
    subst hp
    subst hq
    exact ⟨fun hcon => by omega, fun _ => hy⟩

/-- Witness for C8 on the concrete 4-line fill of a 30 by 10 box. -/
theorem fill_zigzag_alternation_witness :
    (((0 : Int), (0 : Int)).2 < ((30 : Int), (10 : Int)).2 ∧
      fillLines ((0 : Int), (0 : Int)) ((30 : Int), (10 : Int)) 10 20
        = some [[(0, 0), (0, 10)], [(10, 10), (10, 0)], [(20, 0), (20, 10)], [(30, 10), (30, 0)]]) ∧
    (∀ i, i < ([[((0 : Int), (0 : Int)), (0, 10)], [(10, 10), (10, 0)],
          [(20, 0), (20, 10)], [(30, 10), (30, 0)]] : List Path).length →
      ∀ p ∈ (([[((0 : Int), (0 : Int)), (0, 10)], [(10, 10), (10, 0)],
          [(20, 0), (20, 10)], [(30, 10), (30, 0)]] : List Path).getD i []).head?,
        ∀ q ∈ (([[((0 : Int), (0 : Int)), (0, 10)], [(10, 10), (10, 0)],
            [(20, 0), (20, 10)], [(30, 10), (30, 0)]] : List Path).getD i []).getLast?,
          (i % 2 = 0 → p.2 < q.2) ∧ (i % 2 = 1 → q.2 < p.2)) :=
  ⟨⟨by decide, by decide⟩,
    fill_zigzag_alternation ((0 : Int), (0 : Int)) ((30 : Int), (10 : Int)) 10 20
      [[(0, 0), (0, 10)], [(10, 10), (10, 0)], [(20, 0), (20, 10)], [(30, 10), (30, 0)]]
      (by decide) (by decide)⟩

/-- C9: `getLinearFill` terminates (some fuel suffices) for every region whenever
`lineWidth ≥ 1`; for `lineWidth ≤ 0` and a bounding box with `minX ≤ maxX` the
scanline loop never terminates (no fuel suffices), so `lineWidth ≥ 1` is a
precondition for `Fill` to be total. -/
theorem fill_termination (E : FillEngine) (polys : List Path) (minP maxP : Point)
    (w op : Int) :
    (1 ≤ w → ∃ fuel r, getLinearFill E polys minP maxP w op fuel = some r) ∧
    (w ≤ 0 → minP.1 ≤ maxP.1 → ∀ fuel,
      getLinearFill E polys minP maxP w op fuel = none) := by
  constructor
  · intro hw
    obtain ⟨ls, hls⟩ :=
      fillLinesAux_some minP.2 maxP.2 w maxP.1 hw ((maxP.1 - minP.1).toNat + 1) minP.1 0
        (by omega)
    refine ⟨(maxP.1 - minP.1).toNat + 1,
      fillPolys E ls (fillOverlap w op) polys [], ?_⟩
    unfold getLinearFill fillLines
    rw [hls]
  · intro hw hx fuel
    unfold getLinearFill fillLines
    rw [fillLinesAux_none_of_nonpos minP.2 maxP.2 w maxP.1 hw fuel minP.1 0 hx]

/-- Witness for C9: termination with width 2, divergence with width 0. -/
theorem fill_termination_witness :
    (∃ fuel r, getLinearFill trivFillEngine [] ((0 : Int), (0 : Int)) ((5 : Int), (9 : Int))
        2 0 fuel = some r) ∧
    (∀ fuel, getLinearFill trivFillEngine [] ((0 : Int), (0 : Int)) ((5 : Int), (9 : Int))
        0 0 fuel = none) :=
  ⟨(fill_termination trivFillEngine [] ((0 : Int), (0 : Int)) ((5 : Int), (9 : Int)) 2 0).1
      (by decide),
    (fill_termination trivFillEngine [] ((0 : Int), (0 : Int)) ((5 : Int), (9 : Int)) 0 0).2
      (by decide) (by decide)⟩

/-! ## Theorems about the fill loop's failure behaviour -/

theorem fillPolys_nil_of_fail (E : FillEngine) (lines : List Path) (overlap : ℚ) :
    ∀ (polys : List Path) (acc : List Path) (c : Path), c ∈ polys →
      E.intersect (E.offsetPath c (-overlap)) lines = none →
      fillPolys E lines overlap polys acc = [] := by
  intro polys
  induction polys with
  | nil =>
    intro acc c hc hfail
    simp at hc
  | cons p rest ih =>
    intro acc c hc hfail
    unfold fillPolys
    cases hint : E.intersect (E.offsetPath p (-overlap)) lines with
    | none => rfl
    | some cs =>
      rcases List.mem_cons.mp hc with hcp | hcr
      · subst hcp
        rw [hint] at hfail
        cases hfail
      · exact ih (acc ++ cs) c hcr hfail

/-- C2 (amended): if the engine reports failure on the intersection step for any
contour of the region, `getLinearFill` returns the empty result for the whole
call, discarding the fill sub-paths already produced for the other contours. -/
theorem fill_intersect_failure_amended (E : FillEngine) (polys : List Path)
    (minP maxP : Point) (w op : Int) (fuel : Nat) (lines : List Path) (c : Path)
    (hlines : fillLines minP maxP w fuel = some lines)
    (hc : c ∈ polys)
    (hfail : E.intersect (E.offsetPath c (-(fillOverlap w op))) lines = none) :
    getLinearFill E polys minP maxP w op fuel = some [] := by
  unfold getLinearFill
  rw [hlines]
  show some (fillPolys E lines (fillOverlap w op) polys []) = some []
  rw [fillPolys_nil_of_fail E lines (fillOverlap w op) polys [] c hc hfail]

/-- Witness for the amended C2. -/
theorem fill_intersect_failure_amended_witness :
    (fillLines ((0 : Int), (0 : Int)) ((30 : Int), (10 : Int)) 10 20
        = some [[(0, 0), (0, 10)], [(10, 10), (10, 0)], [(20, 0), (20, 10)], [(30, 10), (30, 0)]] ∧
      sq2cex ∈ [sq2cex] ∧
      cexFillEngine.intersect (cexFillEngine.offsetPath sq2cex (-(fillOverlap 10 0)))
        [[(0, 0), (0, 10)], [(10, 10), (10, 0)], [(20, 0), (20, 10)], [(30, 10), (30, 0)]] = none) ∧
    getLinearFill cexFillEngine [sq2cex] ((0 : Int), (0 : Int)) ((30 : Int), (10 : Int))
      10 0 20 = some [] :=
  ⟨⟨by decide, by decide, by decide⟩,
    fill_intersect_failure_amended cexFillEngine [sq2cex] ((0 : Int), (0 : Int))
      ((30 : Int), (10 : Int)) 10 0 20
      [[(0, 0), (0, 10)], [(10, 10), (10, 0)], [(20, 0), (20, 10)], [(30, 10), (30, 0)]]
      sq2cex (by decide) (by decide) (by decide)⟩

/-- C2 (counterexample): the engine fails on the intersection step for the second
contour only; the sub-paths produced for the first contour are non-empty, yet the
whole call returns the empty result rather than keeping them. -/
theorem fill_intersect_failure_counterexample :
    getLinearFill cexFillEngine [sq1cex, sq2cex] ((0 : Int), (0 : Int)) ((30 : Int), (10 : Int))
        10 0 20 = some [] ∧
    cexFillEngine.intersect (cexFillEngine.offsetPath sq1cex (-(fillOverlap 10 0)))
        [[(0, 0), (0, 10)], [(10, 10), (10, 0)], [(20, 0), (20, 10)], [(30, 10), (30, 0)]]
      = some [[(5, 5)]] ∧
    ([[((5 : Int), (5 : Int))]] : List Path) ≠ [] := by
  refine ⟨by decide, by decide, by decide⟩

/-! ## Theorems about the wall-index bookkeeping of `Inset` -/

theorem setLevel_length (row : List Paths) (n : Nat) (wall : Path) :
    (setLevel row n wall).length = max row.length (n + 1) := by
  simp only [setLevel, padTo]
  simp only [List.length_set, List.length_append, List.length_replicate]
  omega

theorem setLevel_getD_lt (row : List Paths) (n : Nat) (wall : Path) (l : Nat)
    (hl : l < n) : (setLevel row n wall).getD l [] = row.getD l [] := by
  simp only [setLevel, padTo]
  conv_lhs => rw [List.getD_eq_getElem?_getD]
  rw [List.getElem?_set_ne (show n ≠ l from by omega)]
  by_cases hr : l < row.length
  · rw [List.getElem?_append_left hr]
    conv_rhs => rw [List.getD_eq_getElem?_getD]
  · rw [List.getElem?_append_right (by omega), List.getElem?_replicate, if_pos (by omega)]
    rw [List.getD_eq_default _ _ (show row.length ≤ l from by omega)]
    rfl

theorem setLevel_getD_at (row : List Paths) (n : Nat) (wall : Path)
    (h : row.length ≤ n) : (setLevel row n wall).getD n [] = [wall] := by
  simp only [setLevel, padTo]
  have hrn : (row ++ List.replicate (n + 1 - row.length) ([] : Paths)).getD n [] = [] := by
    rw [List.getD_eq_getElem?_getD, List.getElem?_append_right (by omega),
      List.getElem?_replicate, if_pos (by omega)]
    rfl
  rw [hrn]
  conv_lhs => rw [List.getD_eq_getElem?_getD]
  rw [List.getElem?_set_eq_of_lt _
    (by simp only [List.length_append, List.length_replicate]; omega)]
  rfl

theorem zipAdd_length (n : Nat) (acc : List (List Paths)) (ws : List Path) :
    (zipAdd n acc ws).length = max acc.length ws.length := by
  induction ws generalizing acc with
  | nil => cases acc <;> simp [zipAdd]
  | cons w ws ih =>
    cases acc with
    | nil =>
      rw [show zipAdd n [] (w :: ws) = setLevel [] n w :: zipAdd n [] ws from rfl,
        List.length_cons, ih []]
      simp only [List.length_nil, List.length_cons, Nat.zero_max]
    | cons row accRest =>
      rw [show zipAdd n (row :: accRest) (w :: ws)
          = setLevel row n w :: zipAdd n accRest ws from rfl,
        List.length_cons, ih accRest]
      simp only [List.length_cons]
      rcases Nat.le_total accRest.length ws.length with hle | hle
      · rw [Nat.max_eq_right hle, Nat.max_eq_right (by omega)]
      · rw [Nat.max_eq_left hle, Nat.max_eq_left (by omega)]

theorem zipAdd_getD_lt (n : Nat) (acc : List (List Paths)) (ws : List Path) (w : Nat)
    (hw : w < ws.length) :
    (zipAdd n acc ws).getD w [] = setLevel (acc.getD w []) n (ws.getD w []) := by
  induction ws generalizing acc w with
  | nil => simp at hw
  | cons wall ws ih =>
    cases acc with
    | nil =>
      cases w with
      | zero => simp [zipAdd]
      | succ w' =>
        simp only [zipAdd, List.getD_cons_succ]
        have := ih [] w' (by simpa using hw)
        simpa using this
    | cons row accRest =>
      cases w with
      | zero => simp [zipAdd]
      | succ w' =>
        simp only [zipAdd, List.getD_cons_succ]
        exact ih accRest w' (by simpa using hw)

theorem zipAdd_getD_ge (n : Nat) (acc : List (List Paths)) (ws : List Path) (w : Nat)
    (hw : ws.length ≤ w) :
    (zipAdd n acc ws).getD w [] = acc.getD w [] := by
  induction ws generalizing acc w with
  | nil => cases acc <;> simp [zipAdd]
  | cons wall ws ih =>
    cases acc with
    | nil =>
      cases w with
      | zero => simp at hw
      | succ w' =>
        simp only [zipAdd, List.getD_cons_succ]
        have := ih [] w' (by simpa using hw)
        simpa using this
    | cons row accRest =>
      cases w with
      | zero => simp at hw
      | succ w' =>
        simp only [zipAdd, List.getD_cons_succ]
        exact ih accRest w' (by simpa using hw)

theorem addWall_eq (insets : List (List Paths)) (insetNr k : Nat) (wall : Path)
    (hk : k ≤ insets.length) :
    addWall insets insetNr k wall
      = insets.take k ++ setLevel (insets.getD k []) insetNr wall :: insets.drop (k + 1) := by
  simp only [addWall]
  by_cases hlt : k < insets.length
  · rw [if_neg (by omega)]
    rw [List.set_eq_take_cons_drop _ hlt]
  · have hk' : k = insets.length := by omega
    subst hk'
    rw [if_pos (by omega)]
    have hgd : (insets ++ [[]] : List (List Paths)).getD insets.length [] = [] := by
      rw [List.getD_eq_getElem?_getD, List.getElem?_append_right (by omega)]
      simp
    have hgd2 : insets.getD insets.length [] = [] := by
      rw [List.getD_eq_getElem?_getD, List.getElem?_eq_none (by omega)]
      rfl
    rw [hgd, hgd2,
      List.set_eq_take_cons_drop _
        (show insets.length < (insets ++ [[]] : List (List Paths)).length from by
          simp)]
    rw [show (insets ++ [[]] : List (List Paths)).take insets.length
        = (insets ++ [[]] : List (List Paths)).take (insets.length + 0) from by rfl,
      List.take_append 0, List.take_zero, List.append_nil]
    rw [show (insets ++ [[]] : List (List Paths)).drop (insets.length + 1)
        = ([[]] : List (List Paths)).drop 1 from List.drop_append 1]
    rw [List.take_length,
      List.drop_eq_nil_of_le (show ([[]] : List (List Paths)).length ≤ 1 from by simp),
      List.drop_eq_nil_of_le (show insets.length ≤ insets.length + 1 from by omega)]

theorem addLevel_foldFrom (insetNr : Nat) :
    ∀ (walls : List Path) (k : Nat) (acc : List (List Paths)), k ≤ acc.length →
      (walls.enumFrom k).foldl (fun a iw => addWall a insetNr iw.1 iw.2) acc
        = acc.take k ++ zipAdd insetNr (acc.drop k) walls := by
  intro walls
  induction walls with
  | nil =>
    intro k acc hk
    show acc = acc.take k ++ zipAdd insetNr (acc.drop k) []
    rw [show zipAdd insetNr (acc.drop k) [] = acc.drop k from by cases acc.drop k <;> simp [zipAdd],
      List.take_append_drop]
  | cons wall ws ih =>
    intro k acc hk
    rw [show List.enumFrom k (wall :: ws) = (k, wall) :: List.enumFrom (k + 1) ws from rfl,
      List.foldl_cons]
    show (List.enumFrom (k + 1) ws).foldl (fun a iw => addWall a insetNr iw.1 iw.2)
        (addWall acc insetNr k wall)
      = acc.take k ++ zipAdd insetNr (acc.drop k) (wall :: ws)
    rw [addWall_eq acc insetNr k wall hk]
    have hklen : (acc.take k).length = k := by
      simp only [List.length_take]
      omega
    have hlen2 : k + 1 ≤ (acc.take k ++ setLevel (acc.getD k []) insetNr wall :: acc.drop (k + 1)).length := by
      simp only [List.length_append, List.length_cons, hklen]
      omega
    rw [ih (k + 1) _ hlen2]
    have htake : (acc.take k ++ setLevel (acc.getD k []) insetNr wall :: acc.drop (k + 1)).take (k + 1)
        = acc.take k ++ [setLevel (acc.getD k []) insetNr wall] := by
      rw [show k + 1 = (acc.take k).length + 1 from by rw [hklen], List.take_append 1]
      rfl
    have hdrop : (acc.take k ++ setLevel (acc.getD k []) insetNr wall :: acc.drop (k + 1)).drop (k + 1)
        = acc.drop (k + 1) := by
      rw [show k + 1 = (acc.take k).length + 1 from by rw [hklen], List.drop_append 1]
      rfl
    rw [htake, hdrop]
    by_cases hlt : k < acc.length
    · have hgd : acc.getD k [] = acc[k] := by
        rw [List.getD_eq_getElem?_getD, List.getElem?_eq_getElem hlt]
        rfl
      rw [show acc.drop k = acc[k] :: acc.drop (k + 1) from List.drop_eq_getElem_cons hlt]
      rw [show zipAdd insetNr (acc[k] :: acc.drop (k + 1)) (wall :: ws)
          = setLevel acc[k] insetNr wall :: zipAdd insetNr (acc.drop (k + 1)) ws from rfl]
      rw [hgd]
      simp
    · have hke : k = acc.length := by omega
      subst hke
      rw [List.drop_eq_nil_of_le (le_refl _), List.drop_eq_nil_of_le (by omega)]
      rw [show zipAdd insetNr [] (wall :: ws) = setLevel [] insetNr wall :: zipAdd insetNr [] ws from rfl]
      have hgd2 : acc.getD acc.length [] = [] := by
        rw [List.getD_eq_getElem?_getD, List.getElem?_eq_none (by omega)]
        rfl
      rw [hgd2]
      simp

theorem addLevel_eq_zipAdd (insets : List (List Paths)) (insetNr : Nat) (walls : List Path) :
    addLevel insets insetNr walls = zipAdd insetNr insets walls := by
  unfold addLevel
  have h := addLevel_foldFrom insetNr walls 0 insets (by omega)
  rw [show walls.enum = walls.enumFrom 0 from rfl]
  rw [h, List.take_zero, List.drop_zero, List.nil_append]

theorem getD_nil_out (acc : List (List Paths)) (w : Nat) (h : acc.length ≤ w) :
    acc.getD w [] = [] :=
  List.getD_eq_default _ _ h

theorem insetInv_addLevel (e : Paths → ℚ → List Path) (inp : Paths) (offset : Int)
    (insetNr : Nat) (acc : List (List Paths)) (walls : List Path)
    (hinv : InsetInv e inp offset insetNr acc)
    (hwlen : walls.length = (e inp (insetDelta offset insetNr)).length)
    (hne : walls ≠ []) :
    InsetInv e inp offset (insetNr + 1) (zipAdd insetNr acc walls) ∧
    acc.length ≤ (zipAdd insetNr acc walls).length ∧
    zipAdd insetNr acc walls ≠ [] := by
  obtain ⟨h1, h2, h3⟩ := hinv
  have hW : 0 < walls.length := List.length_pos.mpr hne
  have hzlen : (zipAdd insetNr acc walls).length = max acc.length walls.length :=
    zipAdd_length insetNr acc walls
  have hrowlen : ∀ w, (acc.getD w []).length ≤ insetNr := by
    intro w
    by_cases hw : w < acc.length
    · exact h1 w hw
    · rw [getD_nil_out acc w (by omega)]
      simp
  refine ⟨⟨?_, ?_, ?_⟩, by omega, ?_⟩
  · intro w hw
    by_cases hwW : w < walls.length
    · rw [zipAdd_getD_lt insetNr acc walls w hwW, setLevel_length]
      have := hrowlen w
      omega
    · rw [zipAdd_getD_ge insetNr acc walls w (by omega)]
      have := hrowlen w
      omega
  · intro _
    rw [zipAdd_getD_lt insetNr acc walls 0 hW, setLevel_length]
    have h0 := hrowlen 0
    omega
  · intro w l hw hl habs
    by_cases hwW : w < walls.length
    · rw [zipAdd_getD_lt insetNr acc walls w hwW] at hl ⊢
      have hrl : (acc.getD w []).length ≤ insetNr := hrowlen w
      rw [setLevel_length] at hl
      by_cases hln : l < insetNr
      · rw [setLevel_getD_lt _ _ _ _ hln]
        by_cases hlo : l < (acc.getD w []).length
        · by_cases hwacc : w < acc.length
          · exact h3 w l hwacc hlo habs
          · rw [getD_nil_out acc w (by omega)] at hlo
            simp at hlo
        · rw [List.getD_eq_default _ _ (by omega)]
      · have hleq : l = insetNr := by omega
        subst hleq
        omega
    · rw [zipAdd_getD_ge insetNr acc walls w (by omega)] at hl ⊢
      have hwacc : w < acc.length := by
        by_cases hc : w < acc.length
        · exact hc
        · rw [getD_nil_out acc w (by omega)] at hl
          simp at hl
      exact h3 w l hwacc hl habs
  · apply List.ne_nil_of_length_pos
    omega

theorem insetLoop_inv (e : Paths → ℚ → List Path) (simplify : Path → Path)
    (inp : Paths) (offset : Int) :
    ∀ (fuel insetNr : Nat) (acc : List (List Paths)),
      InsetInv e inp offset insetNr acc →
      InsetInv e inp offset (insetNr + insetAttempts e inp offset fuel insetNr)
          (insetLoop e simplify inp offset fuel insetNr acc) ∧
      acc.length ≤ (insetLoop e simplify inp offset fuel insetNr acc).length ∧
      (insetAttempts e inp offset fuel insetNr ≠ 0 →
        insetLoop e simplify inp offset fuel insetNr acc ≠ []) := by
  intro fuel
  induction fuel with
  | zero =>
    intro insetNr acc hinv
    simp only [insetLoop, insetAttempts]
    exact ⟨by simpa using hinv, le_refl _, by simp⟩
  | succ f ih =>
    intro insetNr acc hinv
    simp only [insetLoop, insetAttempts]
    by_cases hc : (e inp (insetDelta offset insetNr)).length ≤ 0
    · rw [if_pos hc, if_pos hc]
      exact ⟨by simpa using hinv, le_refl _, by simp⟩
    · rw [if_neg hc, if_neg hc]
      rw [addLevel_eq_zipAdd]
      obtain ⟨hinv', hlen', hne'⟩ :=
        insetInv_addLevel e inp offset insetNr acc
          ((e inp (insetDelta offset insetNr)).map simplify) hinv
          (by rw [List.length_map]) (by
            intro hnil
            have hlm := congrArg List.length hnil
            simp only [List.length_map, List.length_nil] at hlm
            omega)
      obtain ⟨ha, hb, hcne⟩ := ih (insetNr + 1) _ hinv'
      refine ⟨?_, le_trans hlen' hb, ?_⟩
      · rw [show insetNr + (insetAttempts e inp offset f (insetNr + 1) + 1)
            = insetNr + 1 + insetAttempts e inp offset f (insetNr + 1) from by omega]
        exact ha
      · intro _
        apply List.ne_nil_of_length_pos
        have hp : 0 < (zipAdd insetNr acc ((e inp (insetDelta offset insetNr)).map simplify)).length :=
          List.length_pos.mpr hne'
        omega

theorem insetLoop_attempts_zero (e : Paths → ℚ → List Path) (simplify : Path → Path)
    (inp : Paths) (offset : Int) (fuel insetNr : Nat) (acc : List (List Paths))
    (h : insetAttempts e inp offset fuel insetNr = 0) :
    insetLoop e simplify inp offset fuel insetNr acc = acc := by
  cases fuel with
  | zero => rfl
  | succ f =>
    simp only [insetLoop]
    simp only [insetAttempts] at h
    by_cases hc : (e inp (insetDelta offset insetNr)).length ≤ 0
    · rw [if_pos hc]
    · rw [if_neg hc] at h
      omega

/-- C1 (amended): after `Inset` returns, each wall's level list has at most as
many entries as inset levels actually attempted, with equality guaranteed for
wall index 0 (wall lists of walls that stop being produced stay shorter); the
result is empty exactly when no level was attempted; and entries at levels where
the engine produced no contour for that wall index are empty `Paths`. -/
theorem inset_wall_lengths_amended (e : Paths → ℚ → List Path) (simplify : Path → Path)
    (part : LayerPart) (offset : Int) (insetCount : Int) :
    (∀ w, w < (Inset e simplify part offset insetCount).length →
      ((Inset e simplify part offset insetCount).getD w []).length
        ≤ insetAttempts e (part.outline :: part.holes) offset insetCount.toNat 0) ∧
    (Inset e simplify part offset insetCount ≠ [] →
      ((Inset e simplify part offset insetCount).getD 0 []).length
        = insetAttempts e (part.outline :: part.holes) offset insetCount.toNat 0) ∧
    (Inset e simplify part offset insetCount = []
      ↔ insetAttempts e (part.outline :: part.holes) offset insetCount.toNat 0 = 0) ∧
    (∀ w l, w < (Inset e simplify part offset insetCount).length →
      l < ((Inset e simplify part offset insetCount).getD w []).length →
      (e (part.outline :: part.holes) (insetDelta offset l)).length ≤ w →
      ((Inset e simplify part offset insetCount).getD w []).getD l [] = []) := by
  have hbase : InsetInv e (part.outline :: part.holes) offset 0 [] := by
    refine ⟨?_, ?_, ?_⟩
    · intro w hw
      simp at hw
    · intro hctr
      exact absurd rfl hctr
    · intro w l hw
      simp at hw
  obtain ⟨⟨hA, hB, hD⟩, hlen, hne⟩ :=
    insetLoop_inv e simplify (part.outline :: part.holes) offset insetCount.toNat 0 [] hbase
  simp only [Nat.zero_add] at hA hB
  refine ⟨hA, hB, ⟨?_, ?_⟩, hD⟩
  · intro hr
    by_contra hm
    exact hne hm hr
  · intro hm
    exact insetLoop_attempts_zero e simplify _ offset insetCount.toNat 0 [] hm

/-- Witness for the amended C1 at the concrete two-then-one-wall engine. -/
theorem inset_wall_lengths_amended_witness :
    (∀ w, w < (Inset cexInsetEngine id ⟨[], []⟩ 2 2).length →
      ((Inset cexInsetEngine id ⟨[], []⟩ 2 2).getD w []).length
        ≤ insetAttempts cexInsetEngine
            ((⟨[], []⟩ : LayerPart).outline :: (⟨[], []⟩ : LayerPart).holes) 2
            ((2 : Int).toNat) 0) ∧
    (Inset cexInsetEngine id ⟨[], []⟩ 2 2 ≠ [] →
      ((Inset cexInsetEngine id ⟨[], []⟩ 2 2).getD 0 []).length
        = insetAttempts cexInsetEngine
            ((⟨[], []⟩ : LayerPart).outline :: (⟨[], []⟩ : LayerPart).holes) 2
            ((2 : Int).toNat) 0) ∧
    (Inset cexInsetEngine id ⟨[], []⟩ 2 2 = []
      ↔ insetAttempts cexInsetEngine
          ((⟨[], []⟩ : LayerPart).outline :: (⟨[], []⟩ : LayerPart).holes) 2
          ((2 : Int).toNat) 0 = 0) ∧
    (∀ w l, w < (Inset cexInsetEngine id ⟨[], []⟩ 2 2).length →
      l < ((Inset cexInsetEngine id ⟨[], []⟩ 2 2).getD w []).length →
      (cexInsetEngine ((⟨[], []⟩ : LayerPart).outline :: (⟨[], []⟩ : LayerPart).holes)
          (insetDelta 2 l)).length ≤ w →
      ((Inset cexInsetEngine id ⟨[], []⟩ 2 2).getD w []).getD l [] = []) :=
  inset_wall_lengths_amended cexInsetEngine id ⟨[], []⟩ 2 2

/-- C1 (counterexample): with an engine producing two walls at level 0 but only
one wall at level 1, both levels are attempted, yet the two wall lists have
lengths 2 and 1 — `len(insets[w])` is not identical across wall indices and does
not equal the number of attempted levels for wall 1. -/
theorem inset_wall_lengths_counterexample :
    (Inset cexInsetEngine id ⟨[], []⟩ 2 2).map List.length = [2, 1] ∧
    insetAttempts cexInsetEngine
        ((⟨[], []⟩ : LayerPart).outline :: (⟨[], []⟩ : LayerPart).holes) 2
        ((2 : Int).toNat) 0 = 2 ∧
    ¬ (∀ w1 ∈ Inset cexInsetEngine id ⟨[], []⟩ 2 2,
        ∀ w2 ∈ Inset cexInsetEngine id ⟨[], []⟩ 2 2, w1.length = w2.length) := by
  have ht : Int.tdiv 2 2 = 1 := by decide
  have h0 : insetDelta 2 0 = -1 := by norm_num [insetDelta, ht]
  have h1 : insetDelta 2 1 = -3 := by norm_num [insetDelta, ht]
  have hres : Inset cexInsetEngine id ⟨[], []⟩ 2 2
      = [[[[(0, 0)]], [[(0, 0)]]], [[[(0, 0)]]]] := by
    simp [Inset, insetLoop, cexInsetEngine, h0, h1, addLevel, addWall, setLevel, padTo,
      List.enum, List.enumFrom]
  refine ⟨by rw [hres]; rfl, ?_, ?_⟩
  · simp [insetAttempts, cexInsetEngine, h0, h1]
  · intro hall
    have h12 := hall [[[(0, 0)]], [[(0, 0)]]] (by rw [hres]; simp)
      [[[(0, 0)]]] (by rw [hres]; simp)
    simp at h12

end GoSlice
